import Mathlib

/-!
Shallow embedding of the metric-aggregation core of the gnmic Prometheus
output plugin (`outputs/prometheus_output/prometheus_output.go`), together
with theorems settling the specification claims about it.

Modelling conventions:
* Go `time.Time` and `time.Duration` values are nanosecond counts (`Int`);
  `time.Time.Before` is `<` and `now.Add(-d)` is `now - d`.
* Go `float64` sample values are modelled as `Rat`; no claim depends on
  floating-point rounding, only on which coercions succeed.
* `strconv.ParseFloat` (standard library, outside this repository) is a
  parameter `parse : String → Option Rat` of the functions that call it.
* Go maps iterated by `range` are association lists iterated in order; a
  nil pointer dereference (a Go panic) is modelled by `Option.none`.
-/

/-- Characters allowed by the metric-name regex `[^a-zA-Z0-9_]+`:
a character NOT matching that pattern. -/
def isAlphaNumUnd (c : Char) : Bool :=
  (('a' ≤ c) && (c ≤ 'z')) || (('A' ≤ c) && (c ≤ 'Z')) || (('0' ≤ c) && (c ≤ '9')) || (c = '_')

mutual

/-- Model of `regexp.MustCompile("[^a-zA-Z0-9_]+").ReplaceAllString(s, "_")`
outside a run of disallowed characters: each maximal run of disallowed
characters is replaced by a single `_`. -/
def sanitizeGood : List Char → List Char
  | [] => []
  | c :: rest =>
    if isAlphaNumUnd c then c :: sanitizeGood rest else '_' :: sanitizeBad rest

/-- Continuation of `sanitizeGood` inside a run of disallowed characters
(the `_` for the run has already been emitted). -/
def sanitizeBad : List Char → List Char
  | [] => []
  | c :: rest =>
    if isAlphaNumUnd c then c :: sanitizeGood rest else sanitizeBad rest

end

/-- Model of `p.metricRegex.ReplaceAllString(s, "_")`. -/
def sanitize (s : String) : String :=
  String.mk (sanitizeGood s.data)

/-- Model of Go `path/filepath.Base` on a Unix platform (separator `/`):
empty path gives `"."`; trailing separators are stripped; the last path
element is returned; a path of only separators gives `"/"`. -/
def filepathBase (path : String) : String :=
  if path = "" then "." else
  let stripped := (path.data.reverse.dropWhile (fun c => c = '/')).reverse
  let lastElem := (stripped.reverse.takeWhile (fun c => ¬ c = '/')).reverse
  if lastElem = [] then "/" else String.mk lastElem

/-- Model of `strings.TrimLeft(s, "_")`. -/
def trimLeftUnd (s : String) : String :=
  String.mk (s.data.dropWhile (fun c => c = '_'))

/-- Model of `strings.TrimRight(s, "_")`. -/
def trimRightUnd (s : String) : String :=
  String.mk ((s.data.reverse.dropWhile (fun c => c = '_')).reverse)

/-- The UTF-8 encoding of one character, as byte values (Go strings are
UTF-8 byte sequences and `hash.Write` consumes bytes). -/
def charUtf8 (c : Char) : List Nat :=
  let n := c.toNat
  if n < 0x80 then [n]
  else if n < 0x800 then [0xC0 + n / 0x40, 0x80 + n % 0x40]
  else if n < 0x10000 then [0xE0 + n / 0x1000, 0x80 + (n / 0x40) % 0x40, 0x80 + n % 0x40]
  else [0xF0 + n / 0x40000, 0x80 + (n / 0x1000) % 0x40, 0x80 + (n / 0x40) % 0x40, 0x80 + n % 0x40]

/-- The UTF-8 bytes of a string. -/
def utf8Bytes (s : String) : List Nat :=
  (s.data.map charUtf8).flatten

/-- FNV-1a 64-bit offset basis. -/
def fnvOffset : Nat := 0xcbf29ce484222325

/-- FNV-1a 64-bit prime. -/
def fnvPrime : Nat := 0x100000001b3

/-- One step of the streaming FNV-1a 64-bit hash (`hash/fnv`, `New64a`). -/
def fnvStep (h b : Nat) : Nat := ((h ^^^ b) * fnvPrime) % 2 ^ 64

/-- Model of `h.Write(bs)` for the FNV-1a 64-bit hash. -/
def fnvWrite (h : Nat) (bs : List Nat) : Nat := bs.foldl fnvStep h

/-- Model of `h.Write([]byte(s))`. -/
def fnvWriteStr (h : Nat) (s : String) : Nat := fnvWrite h (utf8Bytes s)

/-- Go struct `labelPair`. -/
structure labelPair where
  Name : String
  Value : String
deriving DecidableEq, Repr

/-- Go struct `promMetric`. `time` is `*time.Time` (`none` = nil),
`addedAt` is `time.Time`, `value` is `float64`. -/
structure promMetric where
  name : String
  labels : List labelPair
  time : Option Int
  value : Rat
  addedAt : Int
deriving DecidableEq, Repr

/-- The in-place `sort.Slice(p.labels, ...)` inside `calculateKey`: sort the
label list ascending by `Name`. -/
def sortLabels (ls : List labelPair) : List labelPair :=
  List.insertionSort (fun a b => a.Name ≤ b.Name) ls

/-- Model of `(*promMetric).calculateKey`: FNV-1a over the metric name and,
when labels are present, a `:` separator followed by each label of the
name-sorted label list as `Name:Value:`. -/
def calculateKey (p : promMetric) : Nat :=
  let h := fnvWriteStr fnvOffset p.name
  if 0 < p.labels.length then
    (sortLabels p.labels).foldl
      (fun h l => fnvWriteStr (fnvWriteStr (fnvWriteStr (fnvWriteStr h l.Name) ":") l.Value) ":")
      (fnvWriteStr h ":")
  else h

/-- Go dynamic value kinds that reach `getFloat` (the `interface{}` in
`ev.Values`): each numeric width of the type switch, `string`, and `other`
for every kind outside the switch (the `default` branch). -/
inductive GoValue where
  | f64 (x : Rat)
  | f32 (x : Rat)
  | i64 (n : Int)
  | i32 (n : Int)
  | i16 (n : Int)
  | i8 (n : Int)
  | u64 (n : Nat)
  | u32 (n : Nat)
  | u16 (n : Nat)
  | u8 (n : Nat)
  | goInt (n : Int)
  | goUint (n : Nat)
  | str (s : String)
  | other
deriving DecidableEq, Repr

/-- The two error outcomes of `getFloat`: `strconv.ParseFloat` failure on a
string, and the `default` branch `errors.New("getFloat: unknown value is of
incompatible type")`. -/
inductive GetFloatError where
  | notNumeric
  | unsupportedType
deriving DecidableEq, Repr

/-- Model of `getFloat`. `parse` stands for `strconv.ParseFloat(i, 64)`
(standard library, outside this repository). -/
def getFloat (parse : String → Option Rat) : GoValue → Except GetFloatError Rat
  | .f64 x => .ok x
  | .f32 x => .ok x
  | .i64 n => .ok n
  | .i32 n => .ok n
  | .i16 n => .ok n
  | .i8 n => .ok n
  | .u64 n => .ok n
  | .u32 n => .ok n
  | .u16 n => .ok n
  | .u8 n => .ok n
  | .goInt n => .ok n
  | .goUint n => .ok n
  | .str s =>
    match parse s with
    | some f => .ok f
    | none => .error .notNumeric
  | .other => .error .unsupportedType

/-- The configuration fields of `Config` the core reads. `MetricPrefixCfg`
models the `metric-prefix` field; `Expiration` is a duration in
nanoseconds. -/
structure Config where
  Expiration : Int
  MetricPrefixCfg : String
  AppendSubscriptionName : Bool
  ExportTimestamps : Bool
  StringsAsLabels : Bool
deriving DecidableEq, Repr

/-- Go struct `formatters.EventMsg` — the fields the core reads. `Tags` and
`Values` model Go maps as association lists iterated in list order. -/
structure EventMsg where
  Name : String
  Timestamp : Int
  Tags : List (String × String)
  Values : List (String × GoValue)
deriving DecidableEq, Repr

/-- Model of `metricName`: optional sanitized prefix plus `_`, optional
sanitized subscription name with trailing `_` stripped plus `_`, then the
sanitized value name with leading `_` stripped. -/
def metricName (cfg : Config) (measName valueName : String) : String :=
  (if cfg.MetricPrefixCfg ≠ "" then sanitize cfg.MetricPrefixCfg ++ "_" else "") ++
  (if cfg.AppendSubscriptionName then trimRightUnd (sanitize measName) ++ "_" else "") ++
  trimLeftUnd (sanitize valueName)

/-- The first loop of `getLabels` over `ev.Tags`: returns the label list in
iteration order and the final `addedLabels` set (as a list). A sanitized
name already in `addedLabels` is skipped; otherwise the pair is appended
and the name recorded. -/
def getLabelsTags : List (String × String) → List String → List labelPair × List String
  | [], added => ([], added)
  | (k, v) :: rest, added =>
    let labelName := sanitize (filepathBase k)
    if labelName ∈ added then getLabelsTags rest added
    else
      let r := getLabelsTags rest (labelName :: added)
      (⟨labelName, v⟩ :: r.1, r.2)

/-- The second loop of `getLabels` over `ev.Values` (strings-as-labels pass):
values that coerce to a float are skipped; erroring values that are native
strings become labels when their sanitized name is not in `addedLabels`.
As in the source, this loop checks `addedLabels` but never inserts into it. -/
def getLabelsStrPass (parse : String → Option Rat) :
    List (String × GoValue) → List String → List labelPair
  | [], _ => []
  | (k, v) :: rest, added =>
    match getFloat parse v with
    | .ok _ => getLabelsStrPass parse rest added
    | .error _ =>
      match v with
      | .str vs =>
        let labelName := sanitize (filepathBase k)
        if labelName ∈ added then getLabelsStrPass parse rest added
        else ⟨labelName, vs⟩ :: getLabelsStrPass parse rest added
      | _ => getLabelsStrPass parse rest added

/-- Model of `getLabels`. -/
def getLabels (cfg : Config) (parse : String → Option Rat) (ev : EventMsg) : List labelPair :=
  let r := getLabelsTags ev.Tags []
  if ¬ cfg.StringsAsLabels then r.1
  else r.1 ++ getLabelsStrPass parse ev.Values r.2

/-- The `entries map[uint64]*promMetric` field, as an association list with
at most one binding per key. -/
abbrev Store := List (Nat × promMetric)

/-- Map lookup `p.entries[key]`. -/
def lookupStore : Store → Nat → Option promMetric
  | [], _ => none
  | (k, v) :: rest, key => if k = key then some v else lookupStore rest key

/-- Map assignment `p.entries[key] = pm`: replaces the existing binding or
appends a new one. -/
def storeInsert : Store → Nat → promMetric → Store
  | [], key, pm => [(key, pm)]
  | (k, v) :: rest, key, pm =>
    if k = key then (key, pm) :: rest else (k, v) :: storeInsert rest key pm

/-- The upsert step of `worker` for one already-built `promMetric`:
`key := pm.calculateKey()` (which sorts `pm.labels` in place), then
`if e, ok := p.entries[key]; ok && pm.time != nil` the entry is replaced
only when `e.time.Before(*pm.time)`; otherwise (`!ok` or `pm.time == nil`)
the metric is stored unconditionally. Dereferencing a nil `e.time`
(a Go panic) is `none`. -/
def upsertMetric (s : Store) (pm0 : promMetric) : Option Store :=
  let key := calculateKey pm0
  let pm : promMetric := { pm0 with labels := sortLabels pm0.labels }
  match lookupStore s key, pm0.time with
  | some e, some t =>
    match e.time with
    | none => none
    | some et => some (if et < t then storeInsert s key pm else s)
  | some _, none => some (storeInsert s key pm)
  | none, _ => some (storeInsert s key pm)

/-- The body of the `for vName, val := range ev.Values` loop of `worker` for
one value: on a `getFloat` error the value is dropped (`continue`) unless
strings-as-labels is enabled, in which case the sentinel value `1.0` is
used; the metric carries the event timestamp only when `ExportTimestamps`
is set. -/
def processValue (cfg : Config) (parse : String → Option Rat) (labels : List labelPair)
    (now : Int) (ev : EventMsg) (s : Store) (vName : String) (val : GoValue) : Option Store :=
  let vRes : Option Rat :=
    match getFloat parse val with
    | .ok v => some v
    | .error _ => if cfg.StringsAsLabels then some 1 else none
  match vRes with
  | none => some s
  | some v =>
    let pm : promMetric :=
      { name := metricName cfg ev.Name vName
        labels := labels
        value := v
        addedAt := now
        time := if cfg.ExportTimestamps then some ev.Timestamp else none }
    upsertMetric s pm

/-- The `for vName, val := range ev.Values` loop of `worker`. -/
def processValues (cfg : Config) (parse : String → Option Rat) (labels : List labelPair)
    (now : Int) (ev : EventMsg) : Store → List (String × GoValue) → Option Store
  | s, [] => some s
  | s, (vName, val) :: rest =>
    match processValue cfg parse labels now ev s vName val with
    | none => none
    | some s' => processValues cfg parse labels now ev s' rest

/-- One `processing` pass of `worker` for one event, performed under the
store lock: `now := time.Now()` and the label set are computed once, then
every value of the event is upserted. -/
def processEvent (cfg : Config) (parse : String → Option Rat) (now : Int) (ev : EventMsg)
    (s : Store) : Option Store :=
  processValues cfg parse (getLabels cfg parse ev) now ev s ev.Values

/-- The `for k, e := range p.entries` loop of `expireMetrics`: with
timestamp export the entry is removed when `e.time.Before(expiry)` (nil
`e.time` panics — `none`); otherwise it is removed when
`e.addedAt.Before(expiry)`. -/
def sweepEntries (exportTs : Bool) (expiry : Int) : Store → Option Store
  | [] => some []
  | (k, e) :: rest =>
    if exportTs then
      match e.time with
      | none => none
      | some t =>
        match sweepEntries exportTs expiry rest with
        | none => none
        | some r => some (if t < expiry then r else (k, e) :: r)
    else
      match sweepEntries exportTs expiry rest with
      | none => none
      | some r => some (if e.addedAt < expiry then r else (k, e) :: r)

/-- Model of `expireMetrics`: a no-op when `p.Cfg.Expiration <= 0`,
otherwise a sweep with `expiry := time.Now().Add(-p.Cfg.Expiration)`. -/
def expireMetrics (cfg : Config) (now : Int) (s : Store) : Option Store :=
  if cfg.Expiration ≤ 0 then some s
  else sweepEntries cfg.ExportTimestamps (now - cfg.Expiration) s

/-- The default `Expiration` (`defaultExpiration = time.Minute`), in
nanoseconds. -/
def defaultExpiration : Int := 60 * 1000000000

/-- The effect of `setDefaults` on `p.Cfg.Expiration`: a zero expiration is
replaced by the default of one minute; any other value is kept. -/
def setDefaultsExpiration (e : Int) : Int :=
  if e = 0 then defaultExpiration else e

/-- Model of `Collect`: under the lock, run the eager expiry sweep, then
hand every remaining entry to the collector channel. Returns the swept
store and the exported metrics. -/
def collect (cfg : Config) (now : Int) (s : Store) : Option (Store × List promMetric) :=
  match expireMetrics cfg now s with
  | none => none
  | some s' => some (s', s'.map Prod.snd)

/-- Store invariant for claim C9: every stored metric carries an observation
timestamp exactly when `ExportTimestamps` is enabled. -/
def StoreTimeInv (ets : Bool) (s : Store) : Prop :=
  ∀ kv ∈ s, kv.2.time.isSome = ets

/-- Store invariant for claim C10: the label list of every stored metric is
sorted ascending by label name. -/
def StoreSorted (s : Store) : Prop :=
  ∀ kv ∈ s, List.Sorted (fun a b : labelPair => a.Name ≤ b.Name) kv.2.labels

/-- Owner of the `sync.Mutex` embedded in `PrometheusOutput`. -/
inductive LockOwner where
  | free
  | worker
  | collector
deriving DecidableEq, Repr

/-- Control state of the `worker` goroutine: blocked on the event channel
(`idle`), or inside the `for vName, val := range ev.Values` loop with the
lock held, split into the already-applied prefix `done` and the remaining
values `todo`. -/
inductive WorkerPC where
  | idle
  | applying (labels : List labelPair) (now : Int) (ev : EventMsg)
      (done todo : List (String × GoValue))
deriving DecidableEq, Repr

/-- Shared state of the ingestion goroutine and a concurrent `Collect`
caller: the entries map, the mutex, the worker control state, the event
channel contents, and `completedStore`, a history variable recording the
entries map as of the worker's last lock release (i.e. with no event
partially applied). -/
structure SysState where
  store : Store
  lock : LockOwner
  workerPC : WorkerPC
  pending : List EventMsg
  completedStore : Store

/-- Interleaving semantics of `worker` (lines 300–346) and `Collect`
(lines 258–266): the worker acquires the lock on event receipt, computes
`now` and the label set, applies one value per step, and releases the lock
only after the whole event is applied; `Collect` acquires and releases the
same lock around its read. Each constructor is one atomic step. -/
inductive Step (cfg : Config) (parse : String → Option Rat) : SysState → SysState → Prop where
  | workerAcquire (σ : SysState) (ev : EventMsg) (rest : List EventMsg) (now : Int) :
      σ.lock = .free → σ.workerPC = .idle → σ.pending = ev :: rest →
      Step cfg parse σ
        { σ with lock := .worker, pending := rest,
                 workerPC := .applying (getLabels cfg parse ev) now ev [] ev.Values }
  | workerApply (σ : SysState) (labels : List labelPair) (now : Int) (ev : EventMsg)
      (done : List (String × GoValue)) (vName : String) (val : GoValue)
      (todo : List (String × GoValue)) (s' : Store) :
      σ.lock = .worker →
      σ.workerPC = .applying labels now ev done ((vName, val) :: todo) →
      processValue cfg parse labels now ev σ.store vName val = some s' →
      Step cfg parse σ
        { σ with store := s',
                 workerPC := .applying labels now ev (done ++ [(vName, val)]) todo }
  | workerRelease (σ : SysState) (labels : List labelPair) (now : Int) (ev : EventMsg)
      (done : List (String × GoValue)) :
      σ.lock = .worker → σ.workerPC = .applying labels now ev done [] →
      Step cfg parse σ
        { σ with lock := .free, workerPC := .idle, completedStore := σ.store }
  | collectorAcquire (σ : SysState) :
      σ.lock = .free → Step cfg parse σ { σ with lock := .collector }
  | collectorRelease (σ : SysState) :
      σ.lock = .collector → Step cfg parse σ { σ with lock := .free }

/-- States reachable from a start state with an empty store, the lock free
and the worker waiting on the channel. -/
inductive Reachable (cfg : Config) (parse : String → Option Rat) : SysState → Prop where
  | init (pending : List EventMsg) :
      Reachable cfg parse
        { store := [], lock := .free, workerPC := .idle,
          pending := pending, completedStore := [] }
  | step (σ σ' : SysState) :
      Reachable cfg parse σ → Step cfg parse σ σ' → Reachable cfg parse σ'

instance : IsTotal labelPair (fun a b => a.Name ≤ b.Name) where
  total a b := le_total a.Name b.Name

instance : IsTrans labelPair (fun a b => a.Name ≤ b.Name) where
  trans _ _ _ hab hbc := le_trans hab hbc

instance : IsAntisymm labelPair (fun a b => a.Name < b.Name) where
  antisymm _ _ hab hba := absurd hba (lt_asymm hab)

mutual

theorem sanitizeGood_chars : ∀ (l : List Char), ∀ c ∈ sanitizeGood l, isAlphaNumUnd c = true
  | [] => by simp [sanitizeGood]
  | d :: rest => by
    intro c hc
    rw [sanitizeGood] at hc
    by_cases hd : isAlphaNumUnd d
    · rw [if_pos hd] at hc
      rcases List.mem_cons.mp hc with h | h
      · exact h ▸ hd
      · exact sanitizeGood_chars rest c h
    · rw [if_neg hd] at hc
      rcases List.mem_cons.mp hc with h | h
      · subst h; decide
      · exact sanitizeBad_chars rest c h

theorem sanitizeBad_chars : ∀ (l : List Char), ∀ c ∈ sanitizeBad l, isAlphaNumUnd c = true
  | [] => by simp [sanitizeBad]
  | d :: rest => by
    intro c hc
    rw [sanitizeBad] at hc
    by_cases hd : isAlphaNumUnd d
    · rw [if_pos hd] at hc
      rcases List.mem_cons.mp hc with h | h
      · exact h ▸ hd
      · exact sanitizeGood_chars rest c h
    · rw [if_neg hd] at hc
      exact sanitizeBad_chars rest c hc

end

theorem sanitize_chars (s : String) : ∀ c ∈ (sanitize s).data, isAlphaNumUnd c = true :=
  fun c hc => sanitizeGood_chars s.data c hc

theorem trimLeftUnd_chars (s : String) : ∀ c ∈ (trimLeftUnd s).data, c ∈ s.data :=
  fun _ hc => (List.dropWhile_sublist _).subset hc

theorem trimRightUnd_chars (s : String) : ∀ c ∈ (trimRightUnd s).data, c ∈ s.data := by
  intro c hc
  have h1 : c ∈ s.data.reverse.dropWhile (fun c => c = '_') := List.mem_reverse.mp hc
  exact List.mem_reverse.mp ((List.dropWhile_sublist _).subset h1)

theorem append_chars {P : Char → Prop} {s t : String}
    (hs : ∀ c ∈ s.data, P c) (ht : ∀ c ∈ t.data, P c) : ∀ c ∈ (s ++ t).data, P c := by
  intro c hc
  rw [String.data_append] at hc
  rcases List.mem_append.mp hc with h | h
  · exact hs c h
  · exact ht c h

/-- C7: the tag name `a/b.c` sanitizes to label name `b_c`; with no prefix
and subscription-name appending disabled, `metricName` maps `99bottles` to
itself and `.internal` to `internal`; and every `metricName` result contains
only characters in `[A-Za-z0-9_]`. -/
theorem metricName_sanitization :
    (sanitize (filepathBase "a/b.c") = "b_c")
  ∧ (∀ (cfg : Config) (measName : String), cfg.MetricPrefixCfg = "" →
      cfg.AppendSubscriptionName = false →
      metricName cfg measName "99bottles" = "99bottles"
      ∧ metricName cfg measName ".internal" = "internal")
  ∧ (∀ (cfg : Config) (measName valueName : String),
      ∀ c ∈ (metricName cfg measName valueName).data, isAlphaNumUnd c = true) := by
  refine ⟨by decide, ?_, ?_⟩
  · intro cfg measName h1 h2
    constructor <;> · simp [metricName, h1, h2]; decide
  · intro cfg measName valueName c hc
    unfold metricName at hc
    rw [String.data_append, String.data_append] at hc
    have hund : ∀ d ∈ ("_" : String).data, isAlphaNumUnd d = true := by decide
    rcases List.mem_append.mp hc with h | h
    · rcases List.mem_append.mp h with h2 | h2
      · by_cases hp : cfg.MetricPrefixCfg ≠ ""
        · rw [if_pos hp, String.data_append] at h2
          rcases List.mem_append.mp h2 with h3 | h3
          · exact sanitize_chars _ c h3
          · exact hund c h3
        · rw [if_neg hp] at h2
          cases h2
      · by_cases ha : cfg.AppendSubscriptionName = true
        · rw [if_pos ha, String.data_append] at h2
          rcases List.mem_append.mp h2 with h3 | h3
          · exact sanitize_chars _ c (trimRightUnd_chars _ c h3)
          · exact hund c h3
        · rw [if_neg ha] at h2
          cases h2
    · exact sanitize_chars _ c (trimLeftUnd_chars _ c h)

/-- C3: within the strings-as-labels pass of `getLabels`, two values whose
names sanitize to the same label name both become labels, because the loop
never records the names it adds in `addedLabels`; at the event below the
produced label list carries the name `a_b` twice, contradicting the claimed
per-event deduplication. -/
theorem getLabels_strings_pass_duplicate :
    (getLabels
      { Expiration := 0, MetricPrefixCfg := "", AppendSubscriptionName := false,
        ExportTimestamps := false, StringsAsLabels := true }
      (fun _ => none)
      { Name := "e", Timestamp := 0, Tags := [],
        Values := [("a.b", GoValue.str "x"), ("a-b", GoValue.str "y")] }).map labelPair.Name
      = ["a_b", "a_b"] := by decide

theorem sortLabels_perm (ls : List labelPair) : (sortLabels ls).Perm ls :=
  List.perm_insertionSort _ _

theorem sortLabels_sorted (ls : List labelPair) :
    List.Sorted (fun a b : labelPair => a.Name ≤ b.Name) (sortLabels ls) :=
  List.sorted_insertionSort _ _

theorem sortLabels_strict_sorted {ls : List labelPair}
    (hnodup : (ls.map labelPair.Name).Nodup) :
    List.Pairwise (fun a b : labelPair => a.Name < b.Name) (sortLabels ls) := by
  have hn : ((sortLabels ls).map labelPair.Name).Nodup :=
    (((sortLabels_perm ls).map labelPair.Name).nodup_iff).mpr hnodup
  have hne : List.Pairwise (fun a b : labelPair => a.Name ≠ b.Name) (sortLabels ls) :=
    List.pairwise_map.mp hn
  exact ((sortLabels_sorted ls).and hne).imp (fun h => lt_of_le_of_ne h.1 h.2)

theorem sortLabels_eq_of_perm {L1 L2 : List labelPair} (hperm : L1.Perm L2)
    (hnodup : (L1.map labelPair.Name).Nodup) : sortLabels L1 = sortLabels L2 := by
  have hp : (sortLabels L1).Perm (sortLabels L2) :=
    (sortLabels_perm L1).trans (hperm.trans (sortLabels_perm L2).symm)
  have hnodup2 : (L2.map labelPair.Name).Nodup :=
    ((hperm.map labelPair.Name).nodup_iff).mp hnodup
  exact List.eq_of_perm_of_sorted hp (sortLabels_strict_sorted hnodup)
    (sortLabels_strict_sorted hnodup2)

/-- C1: `calculateKey` is invariant under permuting the label list, for any
metric name and any two label lists with the same pairs (pairwise-distinct
names) in different orders; the timestamp, value and ingestion time of the
metric are irrelevant to the key. -/
theorem calculateKey_order_independent (nm : String) (t1 t2 : Option Int) (v1 v2 : Rat)
    (a1 a2 : Int) (L1 L2 : List labelPair) (hperm : L1.Perm L2)
    (hnodup : (L1.map labelPair.Name).Nodup) :
    calculateKey { name := nm, labels := L1, time := t1, value := v1, addedAt := a1 } =
      calculateKey { name := nm, labels := L2, time := t2, value := v2, addedAt := a2 } := by
  unfold calculateKey
  rw [sortLabels_eq_of_perm hperm hnodup]
  rw [show ({ name := nm, labels := L1, time := t1, value := v1, addedAt := a1 } :
        promMetric).labels.length = L2.length from hperm.length_eq]

/-- Witness for C1: the two-label lists `[b:2, a:1]` and `[a:1, b:2]` are
permutations with distinct names and hash to the same key. -/
theorem calculateKey_order_independent_witness :
    ([⟨"b", "2"⟩, ⟨"a", "1"⟩] : List labelPair).Perm [⟨"a", "1"⟩, ⟨"b", "2"⟩]
    ∧ (([⟨"b", "2"⟩, ⟨"a", "1"⟩] : List labelPair).map labelPair.Name).Nodup
    ∧ calculateKey
        { name := "m", labels := [⟨"b", "2"⟩, ⟨"a", "1"⟩], time := none, value := 0, addedAt := 0 } =
      calculateKey
        { name := "m", labels := [⟨"a", "1"⟩, ⟨"b", "2"⟩], time := none, value := 0, addedAt := 0 } :=
  ⟨by decide, by decide,
    calculateKey_order_independent "m" none none 0 0 0 0 _ _ (by decide) (by decide)⟩

/-- C4 counterexample: a configured expiration of zero does NOT disable
eviction. `setDefaults` replaces a zero expiration with the one-minute
default, after which a sweep removes an entry whose `addedAt` is older than
one minute. -/
theorem expiration_zero_still_evicts :
    setDefaultsExpiration 0 = 60000000000 ∧
    expireMetrics
      { Expiration := setDefaultsExpiration 0, MetricPrefixCfg := "",
        AppendSubscriptionName := false, ExportTimestamps := false, StringsAsLabels := false }
      1000000000000
      [(7, { name := "m", labels := [], time := none, value := 1, addedAt := 0 })] =
      some [] := by
  exact ⟨by decide, by decide⟩

/-- C4 amended: a strictly negative configured expiration disables
eviction — `setDefaults` keeps it negative and every sweep (periodic or the
eager one at export) then leaves the store unchanged — whereas a configured
expiration of zero is replaced at configuration time by the one-minute
default, which enables eviction. -/
theorem negative_expiration_disables_eviction (cfg : Config) (now : Int) (s : Store)
    (h : cfg.Expiration < 0) :
    expireMetrics { cfg with Expiration := setDefaultsExpiration cfg.Expiration } now s = some s
    ∧ setDefaultsExpiration 0 = defaultExpiration := by
  refine ⟨?_, rfl⟩
  have hne : cfg.Expiration ≠ 0 := ne_of_lt h
  simp [expireMetrics, setDefaultsExpiration, hne, le_of_lt h]

/-- Witness for C4's amended claim at expiration `-5`. -/
theorem negative_expiration_disables_eviction_witness :
    expireMetrics
      { Expiration :=
          setDefaultsExpiration
            (Config.Expiration
              { Expiration := -5, MetricPrefixCfg := "", AppendSubscriptionName := false,
                ExportTimestamps := false, StringsAsLabels := false }),
        MetricPrefixCfg := "", AppendSubscriptionName := false,
        ExportTimestamps := false, StringsAsLabels := false }
      999
      [(1, { name := "m", labels := [], time := none, value := 1, addedAt := 0 })] =
      some [(1, { name := "m", labels := [], time := none, value := 1, addedAt := 0 })]
    ∧ setDefaultsExpiration 0 = defaultExpiration :=
  negative_expiration_disables_eviction
    { Expiration := -5, MetricPrefixCfg := "", AppendSubscriptionName := false,
      ExportTimestamps := false, StringsAsLabels := false }
    999
    [(1, { name := "m", labels := [], time := none, value := 1, addedAt := 0 })]
    (by decide)

/-- C5 counterexample: with strings-as-labels enabled, a value whose kind is
outside the supported scalar set (coercion returns `UnsupportedType`) is
NOT dropped — the ingestion loop stores a sample for it with the sentinel
value `1.0`. -/
theorem unsupported_type_value_inserted :
    processEvent
      { Expiration := 0, MetricPrefixCfg := "", AppendSubscriptionName := false,
        ExportTimestamps := false, StringsAsLabels := true }
      (fun _ => none) 5
      { Name := "e", Timestamp := 0, Tags := [], Values := [("v", GoValue.other)] }
      [] =
    some [(calculateKey { name := "v", labels := [], time := none, value := 1, addedAt := 5 },
           { name := "v", labels := [], time := none, value := 1, addedAt := 5 })] := by
  decide

/-- C5 amended: for a value whose kind is outside the supported scalar set
(`getFloat` returns `UnsupportedType`), the ingestion loop drops the value
(store unchanged) when strings-as-labels is disabled; when strings-as-labels
is enabled it upserts a sample for it with the sentinel value `1.0`. -/
theorem unsupported_type_value_handling (cfg : Config) (parse : String → Option Rat)
    (labels : List labelPair) (now : Int) (ev : EventMsg) (s : Store) (vName : String) :
    (cfg.StringsAsLabels = false →
      processValue cfg parse labels now ev s vName GoValue.other = some s)
  ∧ (cfg.StringsAsLabels = true →
      processValue cfg parse labels now ev s vName GoValue.other =
        upsertMetric s
          { name := metricName cfg ev.Name vName, labels := labels, value := 1,
            time := if cfg.ExportTimestamps then some ev.Timestamp else none,
            addedAt := now }) := by
  constructor <;> intro h <;> simp [processValue, getFloat, h]

/-- Witness for C5's amended claim: with strings-as-labels disabled, an
`UnsupportedType` value leaves an empty store empty. -/
theorem unsupported_type_value_handling_witness :
    processValue
      { Expiration := 0, MetricPrefixCfg := "", AppendSubscriptionName := false,
        ExportTimestamps := false, StringsAsLabels := false }
      (fun _ => none) [] 3
      { Name := "e", Timestamp := 0, Tags := [], Values := [] }
      [] "v" GoValue.other = some [] :=
  (unsupported_type_value_handling
    { Expiration := 0, MetricPrefixCfg := "", AppendSubscriptionName := false,
      ExportTimestamps := false, StringsAsLabels := false }
    (fun _ => none) [] 3
    { Name := "e", Timestamp := 0, Tags := [], Values := [] }
    [] "v").1 rfl

theorem sweepEntries_addedAt (expiry : Int) (s : Store) :
    sweepEntries false expiry s =
      some (s.filter (fun kv => !decide (kv.2.addedAt < expiry))) := by
  induction s with
  | nil => rfl
  | cons kv rest ih =>
    obtain ⟨k, e⟩ := kv
    by_cases h : e.addedAt < expiry <;> simp [sweepEntries, ih, List.filter_cons, h]

theorem sweepEntries_time (expiry : Int) (s : Store) (h : ∀ kv ∈ s, kv.2.time ≠ none) :
    sweepEntries true expiry s =
      some (s.filter (fun kv =>
        match kv.2.time with
        | some t => !decide (t < expiry)
        | none => true)) := by
  induction s with
  | nil => rfl
  | cons kv rest ih =>
    obtain ⟨k, e⟩ := kv
    have he := h (k, e) (List.mem_cons_self _ _)
    have ih' := ih (fun kv hkv => h kv (List.mem_cons_of_mem _ hkv))
    match het : e.time with
    | none => exact absurd het he
    | some t =>
      by_cases hlt : t < expiry <;> simp [sweepEntries, het, ih', List.filter_cons, hlt]

/-- C6: with a positive time-to-live, a sweep removes exactly the entries
whose age anchor is strictly older than `now - Expiration` — the anchor
being the observation timestamp when timestamp export is enabled (each
entry carrying one) and the ingestion timestamp `addedAt` otherwise; in
particular, with timestamp export disabled, an entry ingested at `t0`
survives a sweep at `t0 + T - ε` and is removed by a sweep at
`t0 + T + ε` for any `0 < ε`. -/
theorem expireMetrics_removes_exactly_expired (cfg : Config) (now : Int) (s : Store)
    (hT : 0 < cfg.Expiration) :
    (cfg.ExportTimestamps = false →
      expireMetrics cfg now s =
        some (s.filter (fun kv => !decide (kv.2.addedAt < now - cfg.Expiration))))
  ∧ (cfg.ExportTimestamps = true → (∀ kv ∈ s, kv.2.time ≠ none) →
      expireMetrics cfg now s =
        some (s.filter (fun kv =>
          match kv.2.time with
          | some t => !decide (t < now - cfg.Expiration)
          | none => true)))
  ∧ (∀ (k : Nat) (e : promMetric) (t0 T ε : Int), 0 < T → 0 < ε → e.addedAt = t0 →
      expireMetrics { cfg with Expiration := T, ExportTimestamps := false }
          (t0 + T - ε) [(k, e)] = some [(k, e)]
      ∧ expireMetrics { cfg with Expiration := T, ExportTimestamps := false }
          (t0 + T + ε) [(k, e)] = some []) := by
  refine ⟨?_, ?_, ?_⟩
  · intro hts
    rw [expireMetrics, if_neg (not_le.mpr hT), hts]
    exact sweepEntries_addedAt _ s
  · intro hts hall
    rw [expireMetrics, if_neg (not_le.mpr hT), hts]
    exact sweepEntries_time _ s hall
  · intro k e t0 T ε hT' hε ht0
    have h1 : ¬ (e.addedAt < t0 + T - ε - T) := by omega
    have h2 : e.addedAt < t0 + T + ε - T := by omega
    constructor
    · rw [expireMetrics]
      simp only [not_le.mpr hT', if_false, sweepEntries, h1, if_neg h1]
      rfl
    · rw [expireMetrics]
      simp only [not_le.mpr hT', if_false, sweepEntries, if_pos h2]
      rfl

/-- Witness for C6: a store whose single entry was added at time 2 is kept
by a sweep at time 10 with expiration 9 (anchor 2 is not before 1). -/
theorem expireMetrics_removes_exactly_expired_witness :
    expireMetrics
      { Expiration := 9, MetricPrefixCfg := "", AppendSubscriptionName := false,
        ExportTimestamps := false, StringsAsLabels := false }
      10
      [(1, { name := "m", labels := [], time := none, value := 1, addedAt := 2 })] =
      some ([(1, { name := "m", labels := [], time := none, value := 1, addedAt := 2 })].filter
        (fun kv => !decide (kv.2.addedAt < 10 - 9))) :=
  (expireMetrics_removes_exactly_expired
    { Expiration := 9, MetricPrefixCfg := "", AppendSubscriptionName := false,
      ExportTimestamps := false, StringsAsLabels := false }
    10
    [(1, { name := "m", labels := [], time := none, value := 1, addedAt := 2 })]
    (by decide)).1 rfl

theorem lookupStore_storeInsert_self (s : Store) (key : Nat) (pm : promMetric) :
    lookupStore (storeInsert s key pm) key = some pm := by
  induction s with
  | nil => simp [storeInsert, lookupStore]
  | cons kv rest ih =>
    obtain ⟨k, v⟩ := kv
    by_cases h : k = key <;> simp [storeInsert, lookupStore, h, ih]

theorem upsertMetric_insert_of_none {s : Store} (pm : promMetric)
    (h : lookupStore s (calculateKey pm) = none) :
    upsertMetric s pm =
      some (storeInsert s (calculateKey pm) { pm with labels := sortLabels pm.labels }) := by
  simp only [upsertMetric, h]

theorem upsertMetric_found_some {s : Store} (pm : promMetric) {e : promMetric} {t et : Int}
    (hlk : lookupStore s (calculateKey pm) = some e) (hpt : pm.time = some t)
    (het : e.time = some et) :
    upsertMetric s pm =
      some (if et < t then
        storeInsert s (calculateKey pm) { pm with labels := sortLabels pm.labels }
      else s) := by
  simp only [upsertMetric, hlk, hpt, het]

theorem upsertMetric_found_nil_time {s : Store} (pm : promMetric) {e : promMetric}
    (hlk : lookupStore s (calculateKey pm) = some e) (hpt : pm.time = none) :
    upsertMetric s pm =
      some (storeInsert s (calculateKey pm) { pm with labels := sortLabels pm.labels }) := by
  simp only [upsertMetric, hlk, hpt]

/-- C2: the upsert postcondition of `worker`. A sample whose key is absent
is inserted unconditionally; when an entry exists and the incoming sample
carries an observation timestamp, the entry is replaced exactly when the
incoming timestamp is strictly later; when the incoming sample carries no
timestamp (timestamp export disabled), it always overwrites. In
particular, two samples with the same name and labels and timestamps
`t1 < t2` leave the store holding the `t2` sample, in either arrival
order. -/
theorem upsert_postcondition (s : Store) (pm : promMetric) :
    (lookupStore s (calculateKey pm) = none →
      upsertMetric s pm =
        some (storeInsert s (calculateKey pm) { pm with labels := sortLabels pm.labels }))
  ∧ (∀ (e : promMetric) (t et : Int), lookupStore s (calculateKey pm) = some e →
      pm.time = some t → e.time = some et →
      upsertMetric s pm =
        some (if et < t then
          storeInsert s (calculateKey pm) { pm with labels := sortLabels pm.labels }
        else s))
  ∧ (∀ e : promMetric, lookupStore s (calculateKey pm) = some e → pm.time = none →
      upsertMetric s pm =
        some (storeInsert s (calculateKey pm) { pm with labels := sortLabels pm.labels }))
  ∧ (∀ (nm : String) (ls : List labelPair) (t1 t2 : Int) (v1 v2 : Rat) (a1 a2 : Int)
      (s0 : Store), t1 < t2 →
      lookupStore s0
        (calculateKey { name := nm, labels := ls, time := some t1, value := v1, addedAt := a1 })
        = none →
      (∃ s1 s2,
        upsertMetric s0 { name := nm, labels := ls, time := some t1, value := v1, addedAt := a1 }
          = some s1 ∧
        upsertMetric s1 { name := nm, labels := ls, time := some t2, value := v2, addedAt := a2 }
          = some s2 ∧
        lookupStore s2
          (calculateKey { name := nm, labels := ls, time := some t1, value := v1, addedAt := a1 })
          = some { name := nm, labels := sortLabels ls, time := some t2, value := v2, addedAt := a2 })
      ∧ (∃ s1 s2,
        upsertMetric s0 { name := nm, labels := ls, time := some t2, value := v2, addedAt := a2 }
          = some s1 ∧
        upsertMetric s1 { name := nm, labels := ls, time := some t1, value := v1, addedAt := a1 }
          = some s2 ∧
        lookupStore s2
          (calculateKey { name := nm, labels := ls, time := some t1, value := v1, addedAt := a1 })
          = some { name := nm, labels := sortLabels ls, time := some t2, value := v2, addedAt := a2 })) := by
  refine ⟨fun h => upsertMetric_insert_of_none pm h,
          fun e t et hlk hpt het => upsertMetric_found_some pm hlk hpt het,
          fun e hlk hpt => upsertMetric_found_nil_time pm hlk hpt, ?_⟩
  intro nm ls t1 t2 v1 v2 a1 a2 s0 hlt hlk
  constructor
  · have h1 := upsertMetric_insert_of_none
      { name := nm, labels := ls, time := some t1, value := v1, addedAt := a1 } hlk
    have h2 := upsertMetric_found_some
      { name := nm, labels := ls, time := some t2, value := v2, addedAt := a2 }
      (lookupStore_storeInsert_self s0
        (calculateKey { name := nm, labels := ls, time := some t1, value := v1, addedAt := a1 })
        { name := nm, labels := sortLabels ls, time := some t1, value := v1, addedAt := a1 })
      rfl rfl
    rw [if_pos hlt] at h2
    exact ⟨_, _, h1, h2, lookupStore_storeInsert_self _ _ _⟩
  · have hlk2 : lookupStore s0
        (calculateKey { name := nm, labels := ls, time := some t2, value := v2, addedAt := a2 })
        = none := hlk
    have h1 := upsertMetric_insert_of_none
      { name := nm, labels := ls, time := some t2, value := v2, addedAt := a2 } hlk2
    have h2 := upsertMetric_found_some
      { name := nm, labels := ls, time := some t1, value := v1, addedAt := a1 }
      (lookupStore_storeInsert_self s0
        (calculateKey { name := nm, labels := ls, time := some t2, value := v2, addedAt := a2 })
        { name := nm, labels := sortLabels ls, time := some t2, value := v2, addedAt := a2 })
      rfl rfl
    rw [if_neg (lt_asymm hlt)] at h2
    exact ⟨_, _, h1, h2, lookupStore_storeInsert_self _ _ _⟩

/-- Witness for C2 at a concrete store and sample: inserting into the empty
store stores the (label-sorted) sample. -/
theorem upsert_postcondition_witness :
    upsertMetric ([] : Store)
      { name := "m", labels := [⟨"b", "2"⟩, ⟨"a", "1"⟩], time := none, value := 4, addedAt := 0 }
      = some (storeInsert []
          (calculateKey
            { name := "m", labels := [⟨"b", "2"⟩, ⟨"a", "1"⟩], time := none, value := 4,
              addedAt := 0 })
          { name := "m",
            labels := sortLabels [⟨"b", "2"⟩, ⟨"a", "1"⟩], time := none, value := 4,
            addedAt := 0 }) :=
  (upsert_postcondition []
    { name := "m", labels := [⟨"b", "2"⟩, ⟨"a", "1"⟩], time := none, value := 4,
      addedAt := 0 }).1 rfl

theorem mem_storeInsert {s : Store} {key : Nat} {pm : promMetric} {x : Nat × promMetric}
    (hx : x ∈ storeInsert s key pm) : x = (key, pm) ∨ x ∈ s := by
  induction s with
  | nil => simpa [storeInsert] using hx
  | cons kv rest ih =>
    obtain ⟨k, v⟩ := kv
    by_cases h : k = key
    · rw [storeInsert, if_pos h] at hx
      rcases List.mem_cons.mp hx with h1 | h1
      · exact Or.inl h1
      · exact Or.inr (List.mem_cons_of_mem _ h1)
    · rw [storeInsert, if_neg h] at hx
      rcases List.mem_cons.mp hx with h1 | h1
      · exact Or.inr (h1 ▸ List.mem_cons_self _ _)
      · rcases ih h1 with h2 | h2
        · exact Or.inl h2
        · exact Or.inr (List.mem_cons_of_mem _ h2)

theorem lookupStore_mem {s : Store} {key : Nat} {e : promMetric}
    (h : lookupStore s key = some e) : (key, e) ∈ s := by
  induction s with
  | nil => simp [lookupStore] at h
  | cons kv rest ih =>
    obtain ⟨k, v⟩ := kv
    by_cases hk : k = key
    · rw [lookupStore, if_pos hk] at h
      obtain rfl : v = e := Option.some.inj h
      subst hk
      exact List.mem_cons_self _ _
    · rw [lookupStore, if_neg hk] at h
      exact List.mem_cons_of_mem _ (ih h)

theorem upsertMetric_time_inv {ets : Bool} {s : Store} (pm : promMetric)
    (hinv : StoreTimeInv ets s) (hpm : pm.time.isSome = ets) :
    ∃ s', upsertMetric s pm = some s' ∧ StoreTimeInv ets s' := by
  have hins : StoreTimeInv ets
      (storeInsert s (calculateKey pm) { pm with labels := sortLabels pm.labels }) := by
    intro kv hkv
    rcases mem_storeInsert hkv with h | h
    · rw [h]
      exact hpm
    · exact hinv kv h
  rcases hlk : lookupStore s (calculateKey pm) with _ | e
  · exact ⟨_, upsertMetric_insert_of_none pm hlk, hins⟩
  · rcases hpt : pm.time with _ | t
    · exact ⟨_, upsertMetric_found_nil_time pm hlk hpt, hins⟩
    · have hets : ets = true := by rw [← hpm, hpt]; rfl
      have he : e.time.isSome = true := hets ▸ hinv (calculateKey pm, e) (lookupStore_mem hlk)
      obtain ⟨et, het⟩ := Option.isSome_iff_exists.mp he
      refine ⟨_, upsertMetric_found_some pm hlk hpt het, ?_⟩
      by_cases hc : et < t
      · rw [if_pos hc]
        exact hins
      · rw [if_neg hc]
        exact hinv

theorem processValue_time_inv (cfg : Config) (parse : String → Option Rat)
    (labels : List labelPair) (now : Int) (ev : EventMsg) (s : Store) (vName : String)
    (val : GoValue) (hinv : StoreTimeInv cfg.ExportTimestamps s) :
    ∃ s', processValue cfg parse labels now ev s vName val = some s'
      ∧ StoreTimeInv cfg.ExportTimestamps s' := by
  have htime : ((if cfg.ExportTimestamps then some ev.Timestamp else none : Option Int)).isSome
      = cfg.ExportTimestamps := by
    cases cfg.ExportTimestamps <;> rfl
  rcases hgf : getFloat parse val with e | v
  · by_cases hs : cfg.StringsAsLabels
    · obtain ⟨s', h1, h2⟩ := upsertMetric_time_inv
        { name := metricName cfg ev.Name vName, labels := labels, value := 1,
          time := if cfg.ExportTimestamps then some ev.Timestamp else none,
          addedAt := now } hinv htime
      exact ⟨s', by simp only [processValue, hgf, if_pos hs]; exact h1, h2⟩
    · refine ⟨s, ?_, hinv⟩
      simp only [processValue, hgf, if_neg hs]
  · obtain ⟨s', h1, h2⟩ := upsertMetric_time_inv
      { name := metricName cfg ev.Name vName, labels := labels, value := v,
        time := if cfg.ExportTimestamps then some ev.Timestamp else none,
        addedAt := now } hinv htime
    exact ⟨s', by simp only [processValue, hgf]; exact h1, h2⟩

theorem processValues_time_inv (cfg : Config) (parse : String → Option Rat)
    (labels : List labelPair) (now : Int) (ev : EventMsg)
    (vs : List (String × GoValue)) :
    ∀ s : Store, StoreTimeInv cfg.ExportTimestamps s →
      ∃ s', processValues cfg parse labels now ev s vs = some s'
        ∧ StoreTimeInv cfg.ExportTimestamps s' := by
  induction vs with
  | nil => exact fun s hinv => ⟨s, rfl, hinv⟩
  | cons kv rest ih =>
    intro s hinv
    obtain ⟨vName, val⟩ := kv
    obtain ⟨s1, h1, hinv1⟩ := processValue_time_inv cfg parse labels now ev s vName val hinv
    obtain ⟨s2, h2, hinv2⟩ := ih s1 hinv1
    exact ⟨s2, by rw [processValues, h1]; exact h2, hinv2⟩

theorem sweepEntries_time_inv {ets : Bool} {expiry : Int} (s : Store)
    (hinv : StoreTimeInv ets s) :
    ∃ s', sweepEntries ets expiry s = some s' ∧ StoreTimeInv ets s' := by
  induction s with
  | nil => exact ⟨[], rfl, fun kv hkv => absurd hkv (List.not_mem_nil _)⟩
  | cons kv rest ih =>
    obtain ⟨k, e⟩ := kv
    obtain ⟨r, hr, hinvr⟩ := ih (fun kv hkv => hinv kv (List.mem_cons_of_mem _ hkv))
    have he := hinv (k, e) (List.mem_cons_self _ _)
    have hkeep : StoreTimeInv ets ((k, e) :: r) := by
      intro kv hkv
      rcases List.mem_cons.mp hkv with h1 | h1
      · rw [h1]
        exact he
      · exact hinvr kv h1
    cases ets with
    | false =>
      refine ⟨if e.addedAt < expiry then r else (k, e) :: r, ?_, ?_⟩
      · simp only [sweepEntries, hr, Bool.false_eq_true, if_false]
      · by_cases hc : e.addedAt < expiry
        · rw [if_pos hc]
          exact hinvr
        · rw [if_neg hc]
          exact hkeep
    | true =>
      obtain ⟨t, ht⟩ := Option.isSome_iff_exists.mp he
      have ht2 : e.time = some t := ht
      refine ⟨if t < expiry then r else (k, e) :: r, ?_, ?_⟩
      · simp only [sweepEntries, ht2, hr, if_true]
      · by_cases hc : t < expiry
        · rw [if_pos hc]
          exact hinvr
        · rw [if_neg hc]
          exact hkeep

/-- C9: under a fixed configuration, the store invariant "every entry
carries an observation timestamp iff `ExportTimestamps` is enabled" is
preserved by a full ingestion pass and by an expiry sweep, and under it
neither operation ever dereferences a nil `time` pointer (modelled as
returning `none`). -/
theorem store_time_invariant (cfg : Config) (parse : String → Option Rat) (now : Int)
    (ev : EventMsg) (s : Store) (hinv : StoreTimeInv cfg.ExportTimestamps s) :
    (∃ s', processEvent cfg parse now ev s = some s'
        ∧ StoreTimeInv cfg.ExportTimestamps s')
  ∧ (∃ s', expireMetrics cfg now s = some s'
        ∧ StoreTimeInv cfg.ExportTimestamps s') := by
  constructor
  · exact processValues_time_inv cfg parse (getLabels cfg parse ev) now ev ev.Values s hinv
  · unfold expireMetrics
    by_cases hE : cfg.Expiration ≤ 0
    · rw [if_pos hE]
      exact ⟨s, rfl, hinv⟩
    · rw [if_neg hE]
      exact sweepEntries_time_inv s hinv

/-- Witness for C9 at a concrete configuration with timestamps enabled and
a singleton store. -/
theorem store_time_invariant_witness :
    (∃ s', processEvent
        { Expiration := 10, MetricPrefixCfg := "", AppendSubscriptionName := false,
          ExportTimestamps := true, StringsAsLabels := false }
        (fun _ => none) 3
        { Name := "e", Timestamp := 2, Tags := [], Values := [("v", GoValue.i64 4)] }
        [(9, { name := "w", labels := [], time := some 1, value := 0, addedAt := 0 })]
        = some s' ∧ StoreTimeInv true s')
  ∧ (∃ s', expireMetrics
        { Expiration := 10, MetricPrefixCfg := "", AppendSubscriptionName := false,
          ExportTimestamps := true, StringsAsLabels := false }
        3
        [(9, { name := "w", labels := [], time := some 1, value := 0, addedAt := 0 })]
        = some s' ∧ StoreTimeInv true s') :=
  store_time_invariant
    { Expiration := 10, MetricPrefixCfg := "", AppendSubscriptionName := false,
      ExportTimestamps := true, StringsAsLabels := false }
    (fun _ => none) 3
    { Name := "e", Timestamp := 2, Tags := [], Values := [("v", GoValue.i64 4)] }
    [(9, { name := "w", labels := [], time := some 1, value := 0, addedAt := 0 })]
    (by intro kv hkv; rcases List.mem_cons.mp hkv with h | h; · rw [h]; rfl
        · cases h)

theorem upsertMetric_sorted {s : Store} {pm : promMetric} {s' : Store}
    (hs : StoreSorted s) (h : upsertMetric s pm = some s') : StoreSorted s' := by
  have hins : StoreSorted
      (storeInsert s (calculateKey pm) { pm with labels := sortLabels pm.labels }) := by
    intro kv hkv
    rcases mem_storeInsert hkv with h1 | h1
    · rw [h1]
      exact sortLabels_sorted pm.labels
    · exact hs kv h1
  rcases hlk : lookupStore s (calculateKey pm) with _ | e
  · rw [upsertMetric_insert_of_none pm hlk] at h
    obtain rfl := Option.some.inj h
    exact hins
  · rcases hpt : pm.time with _ | t
    · rw [upsertMetric_found_nil_time pm hlk hpt] at h
      obtain rfl := Option.some.inj h
      exact hins
    · rcases het : e.time with _ | et
      · simp only [upsertMetric, hlk, hpt, het] at h
        exact Option.noConfusion h
      · rw [upsertMetric_found_some pm hlk hpt het] at h
        obtain rfl := Option.some.inj h
        by_cases hc : et < t
        · rw [if_pos hc]
          exact hins
        · rw [if_neg hc]
          exact hs

theorem processValue_sorted {cfg : Config} {parse : String → Option Rat}
    {labels : List labelPair} {now : Int} {ev : EventMsg} {s : Store} {vName : String}
    {val : GoValue} {s' : Store} (hs : StoreSorted s)
    (h : processValue cfg parse labels now ev s vName val = some s') : StoreSorted s' := by
  rcases hgf : getFloat parse val with e | v
  · by_cases hsl : cfg.StringsAsLabels
    · simp only [processValue, hgf, if_pos hsl] at h
      exact upsertMetric_sorted hs h
    · simp only [processValue, hgf, if_neg hsl] at h
      obtain rfl := Option.some.inj h
      exact hs
  · simp only [processValue, hgf] at h
    exact upsertMetric_sorted hs h

theorem processValues_sorted {cfg : Config} {parse : String → Option Rat}
    {labels : List labelPair} {now : Int} {ev : EventMsg}
    {vs : List (String × GoValue)} :
    ∀ {s s' : Store}, StoreSorted s →
      processValues cfg parse labels now ev s vs = some s' → StoreSorted s' := by
  induction vs with
  | nil =>
    intro s s' hs h
    obtain rfl := Option.some.inj h
    exact hs
  | cons kv rest ih =>
    intro s s' hs h
    obtain ⟨vName, val⟩ := kv
    rw [processValues] at h
    rcases hpv : processValue cfg parse labels now ev s vName val with _ | s1
    · rw [hpv] at h
      cases h
    · rw [hpv] at h
      exact ih (processValue_sorted hs hpv) h

theorem sweepEntries_subset {ets : Bool} {expiry : Int} :
    ∀ (s r : Store), sweepEntries ets expiry s = some r → ∀ x ∈ r, x ∈ s := by
  intro s
  induction s with
  | nil =>
    intro r h x hx
    rw [sweepEntries] at h
    obtain rfl := Option.some.inj h
    cases hx
  | cons kv rest ih =>
    obtain ⟨k, e⟩ := kv
    intro r h x hx
    cases ets with
    | false =>
      rcases hsw : sweepEntries false expiry rest with _ | r'
      · simp only [sweepEntries, hsw, Bool.false_eq_true, if_false] at h
        exact Option.noConfusion h
      · simp only [sweepEntries, hsw, Bool.false_eq_true, if_false] at h
        obtain rfl := Option.some.inj h
        by_cases hc : e.addedAt < expiry
        · rw [if_pos hc] at hx
          exact List.mem_cons_of_mem _ (ih r' hsw x hx)
        · rw [if_neg hc] at hx
          rcases List.mem_cons.mp hx with h1 | h1
          · exact h1 ▸ List.mem_cons_self _ _
          · exact List.mem_cons_of_mem _ (ih r' hsw x h1)
    | true =>
      rcases het : e.time with _ | t
      · simp only [sweepEntries, het, if_true] at h
        exact Option.noConfusion h
      · rcases hsw : sweepEntries true expiry rest with _ | r'
        · simp only [sweepEntries, het, hsw, if_true] at h
          exact Option.noConfusion h
        · simp only [sweepEntries, het, hsw, if_true] at h
          obtain rfl := Option.some.inj h
          by_cases hc : t < expiry
          · rw [if_pos hc] at hx
            exact List.mem_cons_of_mem _ (ih r' hsw x hx)
          · rw [if_neg hc] at hx
            rcases List.mem_cons.mp hx with h1 | h1
            · exact h1 ▸ List.mem_cons_self _ _
            · exact List.mem_cons_of_mem _ (ih r' hsw x h1)

theorem expireMetrics_subset {cfg : Config} {now : Int} {s r : Store}
    (h : expireMetrics cfg now s = some r) : ∀ x ∈ r, x ∈ s := by
  unfold expireMetrics at h
  by_cases hE : cfg.Expiration ≤ 0
  · rw [if_pos hE] at h
    obtain rfl := Option.some.inj h
    exact fun x hx => hx
  · rw [if_neg hE] at h
    exact sweepEntries_subset s r h

/-- C10: `calculateKey` canonicalizes the label order — the sort it performs
is ascending by label name — and the labels of everything that reaches the
store are sorted: ingestion and the expiry sweep both preserve the store
invariant (anchored at the empty initial store), and every record handed
out by `Collect` has name-sorted labels. -/
theorem store_canonical_label_order (cfg : Config) (parse : String → Option Rat)
    (now : Int) (ev : EventMsg) (s s' : Store) :
    (∀ ls : List labelPair,
      List.Sorted (fun a b : labelPair => a.Name ≤ b.Name) (sortLabels ls))
  ∧ StoreSorted []
  ∧ (StoreSorted s → processEvent cfg parse now ev s = some s' → StoreSorted s')
  ∧ (StoreSorted s → expireMetrics cfg now s = some s' → StoreSorted s')
  ∧ (∀ out : List promMetric, StoreSorted s → collect cfg now s = some (s', out) →
      ∀ pm ∈ out, List.Sorted (fun a b : labelPair => a.Name ≤ b.Name) pm.labels) := by
  refine ⟨sortLabels_sorted, fun kv hkv => absurd hkv (List.not_mem_nil _),
    fun hs h => processValues_sorted hs h, fun hs h => ?_, fun out hs h pm hpm => ?_⟩
  · intro kv hkv
    exact hs kv (expireMetrics_subset h kv hkv)
  · unfold collect at h
    rcases hem : expireMetrics cfg now s with _ | s2
    · rw [hem] at h
      cases h
    · rw [hem] at h
      obtain ⟨rfl, rfl⟩ : s2 = s' ∧ s2.map Prod.snd = out := by
        have := Option.some.inj h
        exact ⟨congrArg Prod.fst this, congrArg Prod.snd this⟩
      obtain ⟨kv, hkv, rfl⟩ := List.mem_map.mp hpm
      exact hs kv (expireMetrics_subset hem kv hkv)

/-- Witness for C10: a concrete ingestion into the empty store yields a
store whose single entry has sorted labels. -/
theorem store_canonical_label_order_witness :
    StoreSorted
      [(calculateKey
          { name := "v", labels := [⟨"a", "x"⟩], time := none, value := 3, addedAt := 1 },
        { name := "v", labels := [⟨"a", "x"⟩], time := none, value := 3, addedAt := 1 })] :=
  ((store_canonical_label_order
      { Expiration := 0, MetricPrefixCfg := "", AppendSubscriptionName := false,
        ExportTimestamps := false, StringsAsLabels := false }
      (fun _ => none) 1
      { Name := "e", Timestamp := 0, Tags := [("a", "x")],
        Values := [("v", GoValue.i64 3)] }
      []
      [(calculateKey
          { name := "v", labels := [⟨"a", "x"⟩], time := none, value := 3, addedAt := 1 },
        { name := "v", labels := [⟨"a", "x"⟩], time := none, value := 3, addedAt := 1 })]).2.2.1)
    (fun kv hkv => absurd hkv (List.not_mem_nil _)) (by decide)

theorem reachable_lock_inv (cfg : Config) (parse : String → Option Rat) :
    ∀ σ : SysState, Reachable cfg parse σ →
      (σ.workerPC ≠ WorkerPC.idle → σ.lock = LockOwner.worker)
      ∧ (σ.lock ≠ LockOwner.worker → σ.store = σ.completedStore) := by
  intro σ h
  induction h with
  | init pending => exact ⟨fun hpc => absurd rfl hpc, fun _ => rfl⟩
  | step σ σ' hreach hstep ih =>
    cases hstep with
    | workerAcquire ev rest now hl hpc hpend =>
      exact ⟨fun _ => rfl, fun hl2 => absurd rfl hl2⟩
    | workerApply labels now ev done vName val todo s1 hl hpc hps =>
      exact ⟨fun _ => hl, fun hl2 => absurd hl hl2⟩
    | workerRelease labels now ev done hl hpc =>
      exact ⟨fun hpc2 => absurd rfl hpc2, fun _ => rfl⟩
    | collectorAcquire hl =>
      constructor
      · intro hpc
        have h1 := ih.1 hpc
        rw [hl] at h1
        exact absurd h1 (by decide)
      · intro _
        exact ih.2 (by rw [hl]; decide)
    | collectorRelease hl =>
      constructor
      · intro hpc
        have h1 := ih.1 hpc
        rw [hl] at h1
        exact absurd h1 (by decide)
      · intro _
        exact ih.2 (by rw [hl]; decide)

/-- C8: in every reachable interleaving of the ingestion loop and a
concurrent `Collect`, whenever `Collect` holds the store lock the worker is
between events (not mid-event), and the store it observes equals the store
as of the worker's last completed event — `Collect` never sees a state in
which only a proper subset of one event's values has been applied. -/
theorem collect_never_observes_partial_event (cfg : Config) (parse : String → Option Rat)
    (σ : SysState) (h : Reachable cfg parse σ) (hc : σ.lock = LockOwner.collector) :
    σ.workerPC = WorkerPC.idle ∧ σ.store = σ.completedStore := by
  have hinv := reachable_lock_inv cfg parse σ h
  have hnw : σ.lock ≠ LockOwner.worker := by rw [hc]; decide
  constructor
  · by_contra hpc
    have := hinv.1 hpc
    exact hnw this
  · exact hinv.2 hnw

/-- Witness for C8: the state reached from the initial state by the
collector acquiring the free lock. -/
theorem collect_never_observes_partial_event_witness :
    SysState.workerPC
        { store := [], lock := LockOwner.collector, workerPC := WorkerPC.idle,
          pending := [], completedStore := [] } = WorkerPC.idle
    ∧ SysState.store
        { store := [], lock := LockOwner.collector, workerPC := WorkerPC.idle,
          pending := [], completedStore := [] } =
      SysState.completedStore
        { store := [], lock := LockOwner.collector, workerPC := WorkerPC.idle,
          pending := [], completedStore := [] } :=
  collect_never_observes_partial_event
    { Expiration := 0, MetricPrefixCfg := "", AppendSubscriptionName := false,
      ExportTimestamps := false, StringsAsLabels := false }
    (fun _ => none)
    { store := [], lock := LockOwner.collector, workerPC := WorkerPC.idle,
      pending := [], completedStore := [] }
    (Reachable.step _ _ (Reachable.init []) (Step.collectorAcquire _ rfl)) rfl

/-- Witness for C7 with prefix and subscription-name appending disabled. -/
theorem metricName_sanitization_witness :
    metricName
      { Expiration := 0, MetricPrefixCfg := "", AppendSubscriptionName := false,
        ExportTimestamps := false, StringsAsLabels := false } "sub" "99bottles" = "99bottles"
    ∧ metricName
      { Expiration := 0, MetricPrefixCfg := "", AppendSubscriptionName := false,
        ExportTimestamps := false, StringsAsLabels := false } "sub" ".internal" = "internal" :=
  metricName_sanitization.2.1
    { Expiration := 0, MetricPrefixCfg := "", AppendSubscriptionName := false,
      ExportTimestamps := false, StringsAsLabels := false } "sub" rfl rfl
